import Mathlib

/-!
Verification development for the capture/retention subsystem of the
CandyCrushGeminiBot repository (`screenshot_lib.py`, `play-game.py`).

The Python code is shallowly embedded: `datetime.datetime` values become the
`DT` structure, `strftime("%Y%m%d_%H%M%S")` and `strptime` become `formatTs`
and `parseTs` (the latter modelling CPython `_strptime`'s compiled regex with
its ordered-alternation backtracking, the "unconverted data remains" check and
the `datetime` constructor's range validation), directory state becomes a list
of filenames, and the threaded cleaner is modelled both as a sequential
function and as an interleaving small-step transition system.
-/

namespace CandyBot

/-- A Python `datetime.datetime` value; `us` is the microsecond field.
Python validates the fields on construction; `ValidDT` captures that. -/
structure DT where
  year : Nat
  month : Nat
  day : Nat
  hour : Nat
  minute : Nat
  second : Nat
  us : Nat
deriving DecidableEq, Repr

/-- Gregorian leap year test, as in `calendar.isleap` / `datetime`. -/
def isLeap (y : Nat) : Bool := y % 4 == 0 && (y % 100 != 0 || y % 400 == 0)

/-- Number of days in month `m` of year `y` (`datetime._days_in_month`). -/
def daysInMonth (y m : Nat) : Nat :=
  if m = 2 then (if isLeap y then 29 else 28)
  else if m = 4 ∨ m = 6 ∨ m = 9 ∨ m = 11 then 30
  else 31

/-- The `datetime` constructor's validity conditions (MINYEAR/MAXYEAR, month,
day-of-month, time-of-day and microsecond ranges). -/
def ValidDT (t : DT) : Prop :=
  1 ≤ t.year ∧ t.year ≤ 9999 ∧ 1 ≤ t.month ∧ t.month ≤ 12 ∧
  1 ≤ t.day ∧ t.day ≤ daysInMonth t.year t.month ∧
  t.hour ≤ 23 ∧ t.minute ≤ 59 ∧ t.second ≤ 59 ∧ t.us ≤ 999999

instance : DecidablePred ValidDT := fun t => by unfold ValidDT; infer_instance

/-- ASCII digit character of `d` (for `d ≤ 9`). -/
def dc (d : Nat) : Char :=
  match d with
  | 0 => '0' | 1 => '1' | 2 => '2' | 3 => '3' | 4 => '4'
  | 5 => '5' | 6 => '6' | 7 => '7' | 8 => '8' | _ => '9'

/-- Numeric value of an ASCII digit character (what `int()` computes on it). -/
def dval (c : Char) : Nat := c.toNat - 48

/-- Two-digit zero-padded decimal rendering (`%m`, `%d`, `%H`, `%M`, `%S`). -/
def pad2 (n : Nat) : List Char := [dc (n / 10), dc (n % 10)]

/-- Four-digit zero-padded decimal rendering of the year (`%Y`; platforms agree
on this rendering for all years ≥ 1000, the range Python guarantees). -/
def pad4 (n : Nat) : List Char :=
  [dc (n / 1000), dc (n / 100 % 10), dc (n / 10 % 10), dc (n % 10)]

/-- `t.strftime("%Y%m%d_%H%M%S")` — the capture filename timestamp
(`screenshot_lib.py` line 159). -/
def formatTs (t : DT) : String :=
  ⟨pad4 t.year ++ pad2 t.month ++ pad2 t.day ++
    '_' :: (pad2 t.hour ++ pad2 t.minute ++ pad2 t.second)⟩

/-- `%Y` of CPython `_strptime`: exactly four decimal digits. -/
def matchY : List Char → Option (Nat × List Char)
  | a :: b :: c :: d :: rest =>
    if a.isDigit ∧ b.isDigit ∧ c.isDigit ∧ d.isDigit then
      some (((dval a * 10 + dval b) * 10 + dval c) * 10 + dval d, rest)
    else none
  | _ => none

/-- Regex branch `1[0-2]` (first alternative of `%m`). -/
def mA1 : List Char → Option (Nat × List Char)
  | a :: b :: rest => if a = '1' ∧ '0' ≤ b ∧ b ≤ '2' then some (10 + dval b, rest) else none
  | _ => none

/-- Regex branch `0[1-9]` (used by `%m` and `%d`). -/
def mA2 : List Char → Option (Nat × List Char)
  | a :: b :: rest => if a = '0' ∧ '1' ≤ b ∧ b ≤ '9' then some (dval b, rest) else none
  | _ => none

/-- Regex branch `[1-9]` (last alternative of `%m` and `%d`). -/
def mA3 : List Char → Option (Nat × List Char)
  | b :: rest => if '1' ≤ b ∧ b ≤ '9' then some (dval b, rest) else none
  | _ => none

/-- Regex branch `3[01]` (first alternative of `%d`). -/
def dA1 : List Char → Option (Nat × List Char)
  | a :: b :: rest => if a = '3' ∧ '0' ≤ b ∧ b ≤ '1' then some (30 + dval b, rest) else none
  | _ => none

/-- Regex branch `[12]\d` (second alternative of `%d`). -/
def dA2 : List Char → Option (Nat × List Char)
  | a :: b :: rest =>
    if ('1' ≤ a ∧ a ≤ '2') ∧ b.isDigit then some (dval a * 10 + dval b, rest) else none
  | _ => none

/-- Regex branch `2[0-3]` (first alternative of `%H`). -/
def hA1 : List Char → Option (Nat × List Char)
  | a :: b :: rest => if a = '2' ∧ '0' ≤ b ∧ b ≤ '3' then some (20 + dval b, rest) else none
  | _ => none

/-- Regex branch `[0-1]\d` (second alternative of `%H`). -/
def hA2 : List Char → Option (Nat × List Char)
  | a :: b :: rest =>
    if ('0' ≤ a ∧ a ≤ '1') ∧ b.isDigit then some (dval a * 10 + dval b, rest) else none
  | _ => none

/-- Regex branch `\d` (last alternative of `%H`, `%M`, `%S`). -/
def hA3 : List Char → Option (Nat × List Char)
  | b :: rest => if b.isDigit then some (dval b, rest) else none
  | _ => none

/-- Regex branch `[0-5]\d` (first alternative of `%M`, second of `%S`). -/
def miA1 : List Char → Option (Nat × List Char)
  | a :: b :: rest =>
    if ('0' ≤ a ∧ a ≤ '5') ∧ b.isDigit then some (dval a * 10 + dval b, rest) else none
  | _ => none

/-- Regex branch `6[0-1]` (first alternative of `%S`, for leap seconds). -/
def sA1 : List Char → Option (Nat × List Char)
  | a :: b :: rest => if a = '6' ∧ '0' ≤ b ∧ b ≤ '1' then some (60 + dval b, rest) else none
  | _ => none

/-- Ordered alternation with backtracking, exactly as a regex engine tries the
branches of `a|b|c`: take the first branch that matches AND whose continuation
succeeds; a failing continuation backtracks into the later branches. -/
def withAlts {α : Type} (alts : List (List Char → Option (Nat × List Char)))
    (cs : List Char) (k : Nat → List Char → Option α) : Option α :=
  match alts with
  | [] => none
  | a :: rest =>
    match a cs with
    | none => withAlts rest cs k
    | some (v, cs') =>
      match k v cs' with
      | some r => some r
      | none => withAlts rest cs k

/-- The six captured fields of the `"%Y%m%d_%H%M%S"` pattern. -/
structure TsFields where
  y : Nat
  mo : Nat
  d : Nat
  h : Nat
  mi : Nat
  s : Nat
deriving DecidableEq, Repr

/-- `re.match` of the regex CPython `_strptime` compiles for
`"%Y%m%d_%H%M%S"`: first-match semantics, returning the captured fields and
the unconsumed remainder of the input. -/
def matchTs (cs : List Char) : Option (TsFields × List Char) :=
  match matchY cs with
  | none => none
  | some (y, cs1) =>
    withAlts [mA1, mA2, mA3] cs1 (fun mo cs2 =>
    withAlts [dA1, dA2, mA2, mA3] cs2 (fun d cs3 =>
    match cs3 with
    | '_' :: cs4 =>
      withAlts [hA1, hA2, hA3] cs4 (fun h cs5 =>
      withAlts [miA1, hA3] cs5 (fun mi cs6 =>
      withAlts [sA1, miA1, hA3] cs6 (fun s cs7 =>
      some (⟨y, mo, d, h, mi, s⟩, cs7))))
    | _ => none))

/-- `datetime.strptime(s, "%Y%m%d_%H%M%S")` (`screenshot_lib.py` line 230):
regex match, the "unconverted data remains" length check, then the `datetime`
constructor's range validation.  `none` models a raised ValueError. -/
def parseTs (str : String) : Option DT :=
  match matchTs str.data with
  | none => none
  | some (f, rest) =>
    if rest = [] then
      if 1 ≤ f.y ∧ f.y ≤ 9999 ∧ 1 ≤ f.mo ∧ f.mo ≤ 12 ∧
         1 ≤ f.d ∧ f.d ≤ daysInMonth f.y f.mo ∧
         f.h ≤ 23 ∧ f.mi ≤ 59 ∧ f.s ≤ 59 then
        some ⟨f.y, f.mo, f.d, f.h, f.mi, f.s, 0⟩
      else none
    else none

/-- `t` truncated to second granularity (what formatting with
`"%Y%m%d_%H%M%S"` retains of an instant). -/
def truncSec (t : DT) : DT := { t with us := 0 }

/-- Python `datetime < datetime`: lexicographic comparison of the seven fields
(this is the comparison `image_time < cutoff_time` on line 232). -/
def dtLt (a b : DT) : Prop :=
  a.year < b.year ∨ (a.year = b.year ∧ (a.month < b.month ∨ (a.month = b.month ∧
  (a.day < b.day ∨ (a.day = b.day ∧ (a.hour < b.hour ∨ (a.hour = b.hour ∧
  (a.minute < b.minute ∨ (a.minute = b.minute ∧ (a.second < b.second ∨
  (a.second = b.second ∧ a.us < b.us)))))))))))

instance : ∀ a b : DT, Decidable (dtLt a b) := fun a b => by unfold dtLt; infer_instance

example : parseTs "20240131_235959" = some ⟨2024, 1, 31, 23, 59, 59, 0⟩ := by decide
example : parseTs "20240230_120000" = none := by decide
example : parseTs "notatimestamp" = none := by decide
example : formatTs ⟨2024, 1, 31, 23, 59, 59, 123⟩ = "20240131_235959" := by decide

/-- Days contributed by the whole years before year `y` in the proleptic
Gregorian calendar (`datetime._days_before_year`). -/
def daysBeforeYear (y : Nat) : Nat :=
  365 * (y - 1) + (y - 1) / 4 - (y - 1) / 100 + (y - 1) / 400

/-- Days in year `y` before month `m` (`datetime._days_before_month`). -/
def daysBeforeMonth (y m : Nat) : Nat :=
  (List.range (m - 1)).foldl (fun acc i => acc + daysInMonth y (i + 1)) 0

/-- `datetime.date.toordinal()`: day number of y-m-d in the proleptic Gregorian
calendar, with 0001-01-01 being day 1. -/
def toOrdinal (y m d : Nat) : Nat := daysBeforeYear y + daysBeforeMonth y m + d

/-- Inverse of `toOrdinal` (the standard civil-from-days computation), used to
model `datetime.date.fromordinal` inside timedelta arithmetic. -/
def fromOrdinal (n : Int) : Nat × Nat × Nat :=
  let z : Int := n + 305
  let era : Int := z.fdiv 146097
  let doe : Int := z - era * 146097
  let yoe : Int := (doe - doe / 1460 + doe / 36524 - doe / 146096) / 365
  let y : Int := yoe + era * 400
  let doy : Int := doe - (365 * yoe + yoe / 4 - yoe / 100)
  let mp : Int := (5 * doy + 2) / 153
  let d : Int := doy - (153 * mp + 2) / 5 + 1
  let m : Int := if mp < 10 then mp + 3 else mp - 9
  let y2 : Int := if m ≤ 2 then y + 1 else y
  (y2.toNat, m.toNat, d.toNat)

/-- `t - timedelta(minutes=m)` on Python datetimes — the cutoff computation of
`cleanup_old_images` (line 224): exact instant arithmetic over
(ordinal, second-of-day); the microsecond field is unchanged by a
whole-minute delta. -/
def dtSubMinutes (t : DT) (m : Nat) : DT :=
  let total : Int := (toOrdinal t.year t.month t.day : Int) * 86400
    + t.hour * 3600 + t.minute * 60 + t.second - 60 * m
  let days : Int := total.fdiv 86400
  let rem : Nat := (total - days * 86400).toNat
  let ymd := fromOrdinal days
  ⟨ymd.1, ymd.2.1, ymd.2.2, rem / 3600, rem / 60 % 60, rem % 60, t.us⟩

example : toOrdinal 2024 1 1 = 738886 := by decide
example : fromOrdinal 738886 = (2024, 1, 1) := by decide
example : fromOrdinal 738885 = (2023, 12, 31) := by decide
example : dtSubMinutes ⟨2024, 1, 1, 0, 0, 30, 77⟩ 1 = ⟨2023, 12, 31, 23, 59, 30, 77⟩ := by
  decide

/-- Index of the instant `t` on a linear second scale (seconds since the start
of ordinal day 0); depends only on the fields above microseconds. -/
def secIdx (t : DT) : Nat :=
  (toOrdinal t.year t.month t.day * 24 + t.hour) * 3600 + t.minute * 60 + t.second

/-- Index of the instant `t` on a linear microsecond scale. -/
def usOf (t : DT) : Nat := secIdx t * 1000000 + t.us

/-- The capture filename for an instant: `f"{prefix}_{now:%Y%m%d_%H%M%S}.png"`
(`take_screenshot`, lines 159-160). -/
def mkFilename (pre : String) (t : DT) : String := pre ++ "_" ++ formatTs t ++ ".png"

/-- Membership of a filename in `Path(save_dir).glob(f"{prefix}_*.png")`
(line 227), for a prefix without fnmatch metacharacters: the pattern is the
prefix literal, a literal underscore, `*` (any characters), and `".png"`. -/
def matchesGlob (pre name : String) : Bool :=
  (pre.data ++ ['_']).isPrefixOf name.data
    && ['.', 'p', 'n', 'g'].isSuffixOf name.data
    && decide (pre.length + 5 ≤ name.length)

/-- A string with none of the fnmatch metacharacters, so that it is matched
literally inside a glob pattern. -/
def globLiteral (pre : String) : Prop :=
  '*' ∉ pre.data ∧ '?' ∉ pre.data ∧ '[' ∉ pre.data

instance : DecidablePred globLiteral := fun p => by unfold globLiteral; infer_instance

/-- `PurePath(name).stem` (line 229): the name with its final suffix removed;
a suffix exists when the last dot sits at an index `i` with
`0 < i < len - 1`. -/
def stemOf (name : String) : String :=
  match name.data.reverse.findIdx? (fun c => c = '.') with
  | none => name
  | some k =>
    let i := name.length - 1 - k
    if 0 < i ∧ i < name.length - 1 then ⟨name.data.take i⟩ else name

/-- `stem.split('_', 1)[1]` (line 229): the part after the first underscore;
`none` models the IndexError raised by `[1]` when the stem contains no
underscore. -/
def afterFirstUnderscore (s : String) : Option String :=
  match s.data.findIdx? (fun c => c = '_') with
  | none => none
  | some i => some ⟨s.data.drop (i + 1)⟩

example : stemOf "screenshot_20240101_000000.png" = "screenshot_20240101_000000" := by decide
example : afterFirstUnderscore "screenshot_20240101_000000" = some "20240101_000000" := by
  decide

/-- The Python exceptions distinguished by the sweep's per-file handler. -/
inductive PyExc where
  | valueError
  | indexError
deriving DecidableEq, Repr

/-- The body of the sweep's per-file `try` (lines 228-234): stem, split at the
first underscore, `strptime`, compare with the cutoff, unlink when older.
Returns whether the file was unlinked.  A missing underscore raises
IndexError; an unparseable timestamp raises ValueError.  (The directory
listing is taken as ground truth, so `unlink` itself succeeds.) -/
def processFile (cutoff : DT) (name : String) : Except PyExc Bool :=
  match afterFirstUnderscore (stemOf name) with
  | none => .error .indexError
  | some tsStr =>
    match parseTs tsStr with
    | none => .error .valueError
    | some t => .ok (decide (dtLt t cutoff))

/-- The sweep's iteration over the glob matches (lines 227-236): ValueError
(and OSError) are caught per file and the loop continues; any other exception
escapes the `for` loop and aborts the sweep.  Returns the names unlinked
before termination and the escaping exception, if any. -/
def sweepRun (cutoff : DT) : List String → List String × Option PyExc
  | [] => ([], none)
  | name :: rest =>
    match processFile cutoff name with
    | .error .indexError => ([], some .indexError)
    | .error .valueError => sweepRun cutoff rest
    | .ok true => ((sweepRun cutoff rest).1.cons name, (sweepRun cutoff rest).2)
    | .ok false => sweepRun cutoff rest

/-- `ImageCleaner.cleanup_old_images` (lines 221-240) applied to a directory
listing: computes the cutoff `now - timedelta(minutes=retention)` and sweeps
the files matching `f"{prefix}_*.png"`, returning the unlinked names and the
escaping exception, if any. -/
def cleanup_old_images (now : DT) (retentionMinutes : Nat) (pre : String)
    (dir : List String) : List String × Option PyExc :=
  sweepRun (dtSubMinutes now retentionMinutes)
    (dir.filter (fun n => matchesGlob pre n))

/-- The directory contents after one sweep at time `now`. -/
def sweepOnce (now : DT) (r : Nat) (pre : String) (dir : List String) : List String :=
  dir.filter (fun n => !(cleanup_old_images now r pre dir).1.contains n)

/-- The directory contents after successive sweeps at the given times. -/
def sweepMany (pre : String) (r : Nat) : List DT → List String → List String
  | [], dir => dir
  | now :: rest, dir => sweepMany pre r rest (sweepOnce now r pre dir)

example :
    cleanup_old_images ⟨2024, 6, 1, 12, 0, 0, 500⟩ 1 "screenshot"
      ["screenshot_20240601_115800.png", "screenshot_20240601_115930.png",
       "screenshot_junk.png", "other.txt"]
      = (["screenshot_20240601_115800.png"], none) := by decide

/-- Normal return vs. a propagated exception. -/
inductive Outcome where
  | ok
  | exc
deriving DecidableEq, Repr

/-- Observable events of a `ScreenshotManager.start` execution. -/
inductive Ev where
  | selector
  | shot (name : String)
  | cleanerStart
  | cleanerStop
deriving DecidableEq, Repr

/-- A capture region (left, top, right, bottom). -/
def Region := Nat × Nat × Nat × Nat

/-- The filenames computed by the first `n` ticks of the capture loop: tick `i`
reads the clock and builds `f"{prefix}_{now:%Y%m%d_%H%M%S}.png"`
(`take_screenshot`, lines 156-165). -/
def shotNames (pre : String) (clock : Nat → DT) (n : Nat) : List String :=
  (List.range n).map (fun i => mkFilename pre (clock i))

/-- `ScreenshotTool.start` (lines 171-191): run `select_region` (which shows
the selector UI only when the configured region is unset, lines 136-154, and
raises ValueError when no region is obtained), then capture in a loop.
Environment inputs: `selRes` is the region the selector UI returns, `ticks` is
the number of completed iterations before KeyboardInterrupt (caught, normal
return), and `fatalAt` is the iteration at which an unexpected exception
escapes the loop and is re-raised, when that happens first. -/
def toolStart (cfgRegion selRes : Option Region) (pre : String) (clock : Nat → DT)
    (ticks : Nat) (fatalAt : Option Nat) : List Ev × Outcome :=
  let loopRun : List Ev × Outcome :=
    match fatalAt with
    | some k =>
      if k < ticks then ((shotNames pre clock k).map Ev.shot, .exc)
      else ((shotNames pre clock ticks).map Ev.shot, .ok)
    | none => ((shotNames pre clock ticks).map Ev.shot, .ok)
  match cfgRegion with
  | some _ => loopRun
  | none =>
    match selRes with
    | some _ => (Ev.selector :: loopRun.1, loopRun.2)
    | none => ([Ev.selector], .exc)

/-- `ScreenshotManager.start` (lines 249-266):
`try { cleaner.start(); tool.start() } except { log; raise } finally
{ cleaner.stop() }`.  `cStart` is the outcome of spawning the cleaner
thread. -/
def managerStart (cStart : Outcome) (cfgRegion selRes : Option Region) (pre : String)
    (clock : Nat → DT) (ticks : Nat) (fatalAt : Option Nat) : List Ev × Outcome :=
  match cStart with
  | .exc => ([Ev.cleanerStart, Ev.cleanerStop], .exc)
  | .ok =>
    let r := toolStart cfgRegion selRes pre clock ticks fatalAt
    (Ev.cleanerStart :: (r.1 ++ [Ev.cleanerStop]), r.2)

/-- Program counter of the `_cleanup_loop` thread (lines 212-219). -/
inductive CPc where
  | check
  | sweep
  | sleep
  | done
deriving DecidableEq, Repr

/-- Program counter of a caller executing `ImageCleaner.stop` (lines 206-210). -/
inductive SPc where
  | idle
  | cleared
  | joining
  | returned
deriving DecidableEq, Repr

/-- Shared state of the cleaner thread and the stopping caller. -/
structure CleanerSt where
  running : Bool
  started : Bool
  cpc : CPc
  spc : SPc
deriving DecidableEq, Repr

/-- Step labels: `del` marks an execution of `cleanup_old_images` (the only
steps that can unlink files). -/
inductive Lbl where
  | del
  | tau
deriving DecidableEq, Repr

/-- Interleaving small-step semantics of `_cleanup_loop` (while running:
cleanup; sleep) running concurrently with `stop` (running = False; join).
`joinReturns` encodes the contract of `Thread.join`: it only returns once the
thread has terminated. -/
inductive CStep : CleanerSt → Lbl → CleanerSt → Prop where
  | checkTrue : ∀ s, s.started = true → s.cpc = .check → s.running = true →
      CStep s .tau { s with cpc := .sweep }
  | checkFalse : ∀ s, s.started = true → s.cpc = .check → s.running = false →
      CStep s .tau { s with cpc := .done }
  | doSweep : ∀ s, s.started = true → s.cpc = .sweep →
      CStep s .del { s with cpc := .sleep }
  | doSleep : ∀ s, s.started = true → s.cpc = .sleep →
      CStep s .tau { s with cpc := .check }
  | stopSetFlag : ∀ s, s.spc = .idle →
      CStep s .tau { s with running := false, spc := .cleared }
  | stopNoThread : ∀ s, s.spc = .cleared → s.started = false →
      CStep s .tau { s with spc := .returned }
  | stopCallJoin : ∀ s, s.spc = .cleared → s.started = true →
      CStep s .tau { s with spc := .joining }
  | joinReturns : ∀ s, s.spc = .joining → s.cpc = .done →
      CStep s .tau { s with spc := .returned }

/-- State right after `ImageCleaner.start`, with a `stop` call pending. -/
def cleanerInit : CleanerSt := ⟨true, true, .check, .idle⟩

/-- States reachable from `cleanerInit`. -/
inductive CReach : CleanerSt → Prop where
  | init : CReach cleanerInit
  | step : ∀ {s l s2}, CReach s → CStep s l s2 → CReach s2

/-- Sequential view of an `ImageCleaner` object: the `running` flag and the
`cleanup_thread` handle. -/
structure CleanerObj where
  running : Bool
  cleanup_thread : Option Unit
deriving DecidableEq, Repr

/-- `ImageCleaner.__init__` (lines 194-197): not running, no thread handle. -/
def cleanerNew : CleanerObj := ⟨false, none⟩

/-- `ImageCleaner.stop` (lines 206-210): clear `running`, then join only when
a thread handle exists.  Returns the new state and whether a join was
attempted. -/
def cleanerStop (c : CleanerObj) : CleanerObj × Bool :=
  ({ c with running := false }, c.cleanup_thread.isSome)

/-- Python string `<` (lexicographic by code point), the order `max` uses on
the globbed paths once the common directory prefix is stripped. -/
def lexLt : List Char → List Char → Bool
  | [], [] => false
  | [], _ :: _ => true
  | _ :: _, [] => false
  | a :: as, b :: bs => if a = b then lexLt as bs else decide (a < b)

/-- Python `max` over a list: keep the first element, replacing it whenever a
strictly greater one appears; `none` models the ValueError on an empty
iterable. -/
def pyMax : List String → Option String
  | [] => none
  | x :: xs => some (xs.foldl (fun m s => if lexLt m.data s.data then s else m) x)

/-- Membership in `glob('*.png')`: fnmatch compiles `*.png` to `(?s:.*\.png)`,
i.e. any name ending in `".png"`. -/
def endsPng (name : String) : Bool := ['.', 'p', 'n', 'g'].isSuffixOf name.data

/-- The directory listing after `take_screenshot` inside
`capture_game_state`: the new capture's name is added when its write
succeeded (`take_screenshot` swallows its own errors, so `writeOk = false`
leaves the listing unchanged). -/
def postShotDir (now : DT) (pre : String) (dir : List String) (writeOk : Bool) :
    List String :=
  if writeOk && !dir.contains (mkFilename pre now) then dir ++ [mkFilename pre now]
  else dir

/-- `CandyCrushGeminiBot.capture_game_state` (`play-game.py`, lines 231-235):
take a screenshot, then return `max(Path(save_dir).glob('*.png'))`. -/
def capture_game_state (now : DT) (pre : String) (dir : List String)
    (writeOk : Bool) : Option String :=
  pyMax ((postShotDir now pre dir writeOk).filter (fun n => endsPng n))

example :
    capture_game_state ⟨2025, 1, 1, 12, 0, 0, 0⟩ "screenshot" ["zz.png"] true
      = some "zz.png" := by decide

/-! ## Theorems -/

/-- The capture loop's trace never contains a `cleanerStop` event: only the
manager stops the cleaner. -/
lemma cleanerStop_not_in_toolStart (cfgRegion selRes : Option Region) (pre : String)
    (clock : Nat → DT) (ticks : Nat) (fatalAt : Option Nat) :
    Ev.cleanerStop ∉ (toolStart cfgRegion selRes pre clock ticks fatalAt).1 := by
  unfold toolStart
  cases cfgRegion <;> cases selRes <;> cases fatalAt <;>
    simp only [] <;> first
      | (split <;> simp [shotNames])
      | simp [shotNames]

/-- C3: `ScreenshotManager.start` emits exactly one `cleanerStop`, and it is
the last event before the manager returns or re-raises — whether the cleaner
spawn raised, the capture loop raised on its first tick, was interrupted, or
returned normally. -/
theorem C3_manager_stops_sweeper_once (cStart : Outcome) (cfgRegion selRes : Option Region)
    (pre : String) (clock : Nat → DT) (ticks : Nat) (fatalAt : Option Nat) :
    (managerStart cStart cfgRegion selRes pre clock ticks fatalAt).1.count Ev.cleanerStop = 1 ∧
    (managerStart cStart cfgRegion selRes pre clock ticks fatalAt).1.getLast?
      = some Ev.cleanerStop := by
  cases cStart with
  | exc => exact ⟨rfl, rfl⟩
  | ok =>
    unfold managerStart
    have hnot := cleanerStop_not_in_toolStart cfgRegion selRes pre clock ticks fatalAt
    constructor
    · simp [List.count_append, List.count_cons, List.count_eq_zero.mpr hnot]
    · show (Ev.cleanerStart :: ((toolStart cfgRegion selRes pre clock ticks fatalAt).1
          ++ [Ev.cleanerStop])).getLast? = some Ev.cleanerStop
      rw [← List.cons_append, List.getLast?_concat]

/-- C6: starting the capture loop with the region unset and no region obtained
from the selector aborts with the propagated ValueError after a single
selection attempt: no screenshot is taken and nothing is retried. -/
theorem C6_unset_region_fails_fast (pre : String) (clock : Nat → DT) (ticks : Nat)
    (fatalAt : Option Nat) :
    (toolStart none none pre clock ticks fatalAt).1 = [Ev.selector] ∧
    (toolStart none none pre clock ticks fatalAt).2 = .exc ∧
    ∀ name, Ev.shot name ∉ (toolStart none none pre clock ticks fatalAt).1 := by
  refine ⟨rfl, rfl, ?_⟩
  intro name
  simp [toolStart]

/-- Reachability invariant of the cleaner/stopper system: the thread handle
exists, and once `stop` has returned, the cleanup thread has terminated. -/
lemma creach_invariant {s : CleanerSt} (h : CReach s) :
    s.started = true ∧ (s.spc = .returned → s.cpc = .done) := by
  induction h with
  | init => exact ⟨rfl, fun h => by cases h⟩
  | step _ hs ih =>
    obtain ⟨hstart, hinv⟩ := ih
    cases hs with
    | checkTrue _ h2 _ =>
      exact ⟨hstart, fun h => absurd (h2.symm.trans (hinv h)) (by decide)⟩
    | checkFalse _ _ _ => exact ⟨hstart, fun _ => rfl⟩
    | doSweep _ h2 =>
      exact ⟨hstart, fun h => absurd (h2.symm.trans (hinv h)) (by decide)⟩
    | doSleep _ h2 =>
      exact ⟨hstart, fun h => absurd (h2.symm.trans (hinv h)) (by decide)⟩
    | stopSetFlag _ => exact ⟨hstart, fun h => by cases h⟩
    | stopNoThread _ h2 => exact absurd (hstart.symm.trans h2) (by decide)
    | stopCallJoin _ _ => exact ⟨hstart, fun h => by cases h⟩
    | joinReturns _ h2 => exact ⟨hstart, fun _ => h2⟩

/-- C4: in every reachable state in which `ImageCleaner.stop` has returned,
the cleanup thread has terminated (the join blocked until then), and no step
labelled `del` — no further file deletion — is possible. -/
theorem C4_no_delete_after_stop_returns {s : CleanerSt} (h : CReach s)
    (hret : s.spc = .returned) :
    s.cpc = .done ∧ ∀ s2, ¬ CStep s .del s2 := by
  have hdone := (creach_invariant h).2 hret
  refine ⟨hdone, ?_⟩
  intro s2 hstep
  cases hstep with
  | doSweep _ h2 => exact absurd (hdone.symm.trans h2) (by decide)

/-- Witness for C4 at the state reached by: stop clears the flag, the thread
observes it and terminates, stop joins and returns. -/
theorem C4_no_delete_after_stop_returns_witness :
    (⟨false, true, .done, .returned⟩ : CleanerSt).cpc = .done ∧
    ∀ s2, ¬ CStep (⟨false, true, .done, .returned⟩ : CleanerSt) .del s2 :=
  C4_no_delete_after_stop_returns
    (CReach.step (CReach.step (CReach.step (CReach.step CReach.init
      (CStep.stopSetFlag _ rfl)) (CStep.checkFalse _ rfl rfl rfl))
      (CStep.stopCallJoin _ rfl rfl)) (CStep.joinReturns _ rfl rfl)) rfl

/-- C10: calling `stop` on a never-started `ImageCleaner` returns normally,
attempts no join (the thread handle is still `None`), and leaves the cleaner
in the stopped state. -/
theorem C10_stop_before_start_safe :
    cleanerStop cleanerNew = (⟨false, none⟩, false) := rfl

/-! ### Decomposition of glob-matched filenames -/

lemma findIdx_underscore (l t : List Char) (hl : '_' ∉ l) :
    List.findIdx? (fun c => c = '_') (l ++ '_' :: t) = some l.length := by
  induction l with
  | nil => simp [List.findIdx?_cons]
  | cons a l ih =>
    have ha : ¬ (a = '_') := fun h => hl (h ▸ List.mem_cons_self a l)
    have hl2 : '_' ∉ l := fun h => hl (List.mem_cons_of_mem a h)
    simp [List.findIdx?_cons, List.findIdx?_succ, ha, ih hl2]

lemma afterFirstUnderscore_eq (p t : String) (hp : '_' ∉ p.data) :
    afterFirstUnderscore (p ++ "_" ++ t) = some t := by
  unfold afterFirstUnderscore
  have hd : (p ++ "_" ++ t).data = p.data ++ '_' :: t.data := by
    simp [String.data_append]
  rw [hd, findIdx_underscore _ _ hp]
  have hdrop : (p.data ++ '_' :: t.data).drop (p.data.length + 1) = t.data := by
    have : p.data ++ '_' :: t.data = (p.data ++ ['_']) ++ t.data := by simp
    rw [this, show p.data.length + 1 = (p.data ++ ['_']).length by simp]
    exact List.drop_left _ _
  simp only [hdrop]

lemma stemOf_append_png (l : List Char) (hl : l ≠ []) :
    stemOf ⟨l ++ ['.', 'p', 'n', 'g']⟩ = ⟨l⟩ := by
  unfold stemOf
  have hrev : (l ++ ['.', 'p', 'n', 'g']).reverse = 'g' :: 'n' :: 'p' :: '.' :: l.reverse := by
    simp
  have hfind : List.findIdx? (fun c => c = '.')
      ((String.mk (l ++ ['.', 'p', 'n', 'g'])).data.reverse) = some 3 := by
    rw [show (String.mk (l ++ ['.', 'p', 'n', 'g'])).data = l ++ ['.', 'p', 'n', 'g'] from rfl,
      hrev]
    simp [List.findIdx?_cons, List.findIdx?_succ]
  rw [hfind]
  have hlen : (String.mk (l ++ ['.', 'p', 'n', 'g'])).length = l.length + 4 := by
    show (l ++ ['.', 'p', 'n', 'g']).length = l.length + 4
    simp
  rw [hlen]
  have hpos := List.length_pos.mpr hl
  split
  · next heq => cases heq
  · next k heq =>
    have hk : k = 3 := by
      have := Option.some.inj heq
      omega
    subst hk
    have hi : l.length + 4 - 1 - 3 = l.length := by omega
    rw [hi, if_pos ⟨by omega, by omega⟩]
    show (⟨(l ++ ['.', 'p', 'n', 'g']).take l.length⟩ : String) = ⟨l⟩
    rw [List.take_left l _]

/-- A glob-matched name decomposes as `prefix ++ "_" ++ mid ++ ".png"`. -/
lemma matchesGlob_elim {p name : String} (h : matchesGlob p name = true) :
    ∃ mid : List Char, name.data = p.data ++ '_' :: (mid ++ ['.', 'p', 'n', 'g']) := by
  unfold matchesGlob at h
  rw [Bool.and_eq_true, Bool.and_eq_true] at h
  obtain ⟨⟨hpre, hsuf⟩, hlen⟩ := h
  rw [List.isPrefixOf_iff_prefix] at hpre
  rw [List.isSuffixOf_iff_suffix] at hsuf
  rw [decide_eq_true_iff] at hlen
  obtain ⟨r, hr⟩ := hpre
  obtain ⟨w, hw⟩ := hsuf
  have hlen2 : p.data.length + 5 ≤ name.data.length := hlen
  have hrlen : 4 ≤ r.length := by
    have h1 := congrArg List.length hr
    have h2 := congrArg List.length hw
    simp only [List.length_append, List.length_cons, List.length_nil] at h1 h2
    omega
  have hsplit : ((p.data ++ ['_']) ++ r.take (r.length - 4)) ++ r.drop (r.length - 4)
      = w ++ ['.', 'p', 'n', 'g'] := by
    rw [List.append_assoc, List.take_append_drop, hr, hw]
  have hinj := List.append_inj' hsplit (by
    simp only [List.length_drop, List.length_cons, List.length_nil]
    omega)
  refine ⟨r.take (r.length - 4), ?_⟩
  calc name.data = (p.data ++ ['_']) ++ r := hr.symm
    _ = (p.data ++ ['_']) ++ (r.take (r.length - 4) ++ r.drop (r.length - 4)) := by
        rw [List.take_append_drop]
    _ = p.data ++ '_' :: (r.take (r.length - 4) ++ ['.', 'p', 'n', 'g']) := by
        rw [hinj.2]
        simp

lemma matchesGlob_decomp (p mid : String) :
    matchesGlob p (p ++ "_" ++ mid ++ ".png") = true := by
  unfold matchesGlob
  rw [Bool.and_eq_true, Bool.and_eq_true]
  refine ⟨⟨?_, ?_⟩, ?_⟩
  · rw [List.isPrefixOf_iff_prefix]
    exact ⟨mid.data ++ ['.', 'p', 'n', 'g'], by simp [String.data_append]⟩
  · rw [List.isSuffixOf_iff_suffix]
    exact ⟨p.data ++ '_' :: mid.data, by simp [String.data_append]⟩
  · rw [decide_eq_true_iff]
    show p.data.length + 5 ≤ (p ++ "_" ++ mid ++ ".png").data.length
    simp only [String.data_append, List.length_append, List.length_cons, List.length_nil]
    omega

lemma processFile_decomp (cutoff : DT) (p tsStr : String) (hp : '_' ∉ p.data) :
    processFile cutoff (p ++ "_" ++ tsStr ++ ".png") =
      (match parseTs tsStr with
       | none => .error .valueError
       | some t => .ok (decide (dtLt t cutoff))) := by
  unfold processFile
  have hname : (p ++ "_" ++ tsStr ++ ".png")
      = String.mk ((p ++ "_" ++ tsStr).data ++ ['.', 'p', 'n', 'g']) := by
    apply String.ext
    simp [String.data_append]
  have hne : (p ++ "_" ++ tsStr).data ≠ [] := by
    simp [String.data_append]
  rw [hname, stemOf_append_png _ hne,
    show String.mk (p ++ "_" ++ tsStr).data = p ++ "_" ++ tsStr from rfl,
    afterFirstUnderscore_eq p tsStr hp]

lemma findIdx_isSome_of_mem {q : Char → Bool} {l : List Char} {c : Char}
    (hc : c ∈ l) (hq : q c = true) : (List.findIdx? q l).isSome = true := by
  induction l with
  | nil => cases hc
  | cons a l ih =>
    rw [List.findIdx?_cons]
    by_cases ha : q a = true
    · simp [ha]
    · have : c ∈ l := by
        cases hc with
        | head => exact absurd hq ha
        | tail _ h => exact h
      simp [ha, List.findIdx?_succ]
      have := ih this
      cases hfi : List.findIdx? q l with
      | none => rw [hfi] at this; simp at this
      | some k => simp

/-- Every glob-matched name survives the per-file stem/split without the
uncaught IndexError: its stem contains an underscore. -/
lemma processFile_no_indexError {cutoff : DT} {p name : String}
    (h : matchesGlob p name = true) :
    processFile cutoff name ≠ .error .indexError := by
  obtain ⟨mid, hmid⟩ := matchesGlob_elim h
  have hname : name = String.mk ((p.data ++ '_' :: mid) ++ ['.', 'p', 'n', 'g']) := by
    apply String.ext
    simp [hmid]
  unfold processFile
  rw [hname, stemOf_append_png _ (by simp)]
  have hmem : '_' ∈ p.data ++ '_' :: mid := by simp
  have hsome := findIdx_isSome_of_mem (q := fun c => c = '_') hmem (by simp)
  unfold afterFirstUnderscore
  cases hfi : List.findIdx? (fun c => c = '_') (String.mk (p.data ++ '_' :: mid)).data with
  | none =>
    rw [show (String.mk (p.data ++ '_' :: mid)).data = p.data ++ '_' :: mid from rfl] at hfi
    rw [hfi] at hsome
    simp at hsome
  | some i =>
    split
    · next heq => simp at heq
    · next ts heq => split <;> simp

/-! ### Sweep lemmas -/

lemma sweepRun_sub (cutoff : DT) :
    ∀ (l : List String) (f : String), f ∈ (sweepRun cutoff l).1 → f ∈ l := by
  intro l
  induction l with
  | nil => intro f hf; simp [sweepRun] at hf
  | cons x rest ih =>
    intro f hf
    unfold sweepRun at hf
    cases hpf : processFile cutoff x with
    | error e =>
      cases e with
      | valueError =>
        rw [hpf] at hf
        exact List.mem_cons_of_mem x (ih f hf)
      | indexError =>
        rw [hpf] at hf
        simp at hf
    | ok b =>
      cases b with
      | true =>
        rw [hpf] at hf
        rcases List.mem_cons.mp hf with h | h
        · exact h ▸ List.mem_cons_self x rest
        · exact List.mem_cons_of_mem x (ih f h)
      | false =>
        rw [hpf] at hf
        exact List.mem_cons_of_mem x (ih f hf)

lemma sweepRun_spec (cutoff : DT) (l : List String)
    (hall : ∀ x ∈ l, processFile cutoff x ≠ .error .indexError) :
    (sweepRun cutoff l).2 = none ∧
    ∀ f, f ∈ (sweepRun cutoff l).1 ↔ f ∈ l ∧ processFile cutoff f = .ok true := by
  induction l with
  | nil => simp [sweepRun]
  | cons x rest ih =>
    have hx := hall x (List.mem_cons_self x rest)
    have ih2 := ih (fun y hy => hall y (List.mem_cons_of_mem x hy))
    unfold sweepRun
    cases hpf : processFile cutoff x with
    | error e =>
      cases e with
      | indexError => exact absurd hpf hx
      | valueError =>
        refine ⟨ih2.1, fun f => ?_⟩
        rw [ih2.2 f]
        constructor
        · rintro ⟨h1, h2⟩
          exact ⟨List.mem_cons_of_mem x h1, h2⟩
        · rintro ⟨h1, h2⟩
          rcases List.mem_cons.mp h1 with h | h
          · rw [h] at h2
            rw [h2] at hpf
            cases hpf
          · exact ⟨h, h2⟩
    | ok b =>
      cases b with
      | true =>
        refine ⟨ih2.1, fun f => ?_⟩
        simp only [List.mem_cons]
        constructor
        · rintro (h | h)
          · exact ⟨Or.inl h, h ▸ hpf⟩
          · have := (ih2.2 f).mp h
            exact ⟨Or.inr this.1, this.2⟩
        · rintro ⟨h1, h2⟩
          rcases h1 with h | h
          · exact Or.inl h
          · exact Or.inr ((ih2.2 f).mpr ⟨h, h2⟩)
      | false =>
        refine ⟨ih2.1, fun f => ?_⟩
        rw [ih2.2 f]
        constructor
        · rintro ⟨h1, h2⟩
          exact ⟨List.mem_cons_of_mem x h1, h2⟩
        · rintro ⟨h1, h2⟩
          rcases List.mem_cons.mp h1 with h | h
          · rw [h] at h2
            rw [h2] at hpf
            cases hpf
          · exact ⟨h, h2⟩

/-- The sweep over any directory listing raises no uncaught exception, and a
file is unlinked iff it matches the glob and its per-file processing decides
to unlink it. -/
lemma cleanup_spec (now : DT) (r : Nat) (pre : String) (dir : List String) :
    (cleanup_old_images now r pre dir).2 = none ∧
    ∀ f, f ∈ (cleanup_old_images now r pre dir).1 ↔
      f ∈ dir ∧ matchesGlob pre f = true ∧
        processFile (dtSubMinutes now r) f = .ok true := by
  unfold cleanup_old_images
  have hall : ∀ x ∈ dir.filter (fun n => matchesGlob pre n),
      processFile (dtSubMinutes now r) x ≠ .error .indexError := by
    intro x hx
    exact processFile_no_indexError (List.mem_filter.mp hx).2
  obtain ⟨h1, h2⟩ := sweepRun_spec (dtSubMinutes now r) _ hall
  refine ⟨h1, fun f => ?_⟩
  rw [h2 f, List.mem_filter]
  tauto

/-- C9: a sweep unlinks only names matching the configured `{prefix}_*.png`
pattern; every file not matching it survives any number of sweeps. -/
theorem C9_sweep_frame (pre f : String) (_hlit : globLiteral pre)
    (hf : matchesGlob pre f = false) (nows : List DT) (r : Nat) :
    ∀ dir : List String, f ∈ dir → f ∈ sweepMany pre r nows dir := by
  induction nows with
  | nil => intro dir hin; exact hin
  | cons now rest ih =>
    intro dir hin
    show f ∈ sweepMany pre r rest (sweepOnce now r pre dir)
    apply ih
    unfold sweepOnce
    rw [List.mem_filter]
    refine ⟨hin, ?_⟩
    have hnot : f ∉ (cleanup_old_images now r pre dir).1 := by
      intro hmem
      have hspec := ((cleanup_spec now r pre dir).2 f).mp hmem
      rw [hspec.2.1] at hf
      cases hf
    simp [List.contains, List.elem_eq_mem, hnot]

/-- Witness for C9: `notes.txt` survives a sweep that does delete an old
screenshot. -/
theorem C9_sweep_frame_witness :
    "notes.txt" ∈ sweepMany "screenshot" 1 [⟨2024, 6, 1, 12, 0, 0, 0⟩]
      ["notes.txt", "screenshot_20240601_115800.png"] :=
  C9_sweep_frame "screenshot" "notes.txt" (by decide) (by decide) _ 1 _ (by decide)

/-- C1 counterexample: the config with `file_prefix = "a_b"` is valid, yet the
ancient matching file `a_b_19000101_000000.png` — whose embedded timestamp is
far older than the cutoff — is not deleted by the sweep: the sweeper splits
the stem at the FIRST underscore, so the timestamp it tries to parse is
`b_19000101_000000`, which fails, and the file is skipped forever. -/
theorem C1_retention_counterexample :
    matchesGlob "a_b" "a_b_19000101_000000.png" = true ∧
    parseTs "19000101_000000" = some ⟨1900, 1, 1, 0, 0, 0, 0⟩ ∧
    dtLt ⟨1900, 1, 1, 0, 0, 0, 0⟩ (dtSubMinutes ⟨2024, 6, 1, 12, 0, 0, 0⟩ 1) ∧
    cleanup_old_images ⟨2024, 6, 1, 12, 0, 0, 0⟩ 1 "a_b" ["a_b_19000101_000000.png"]
      = ([], none) := by decide

/-- C1 (amended): for a prefix containing no underscore (and no glob
metacharacters), a sweep at time `now` with retention `r` minutes deletes a
listed file `{prefix}_{tsStr}.png` with embedded timestamp `ts` iff
`ts < now - r`, retains it iff `ts ≥ now - r`, and raises nothing. -/
theorem C1_retention (now : DT) (r : Nat) (pre : String) (hp : '_' ∉ pre.data)
    (_hlit : globLiteral pre) (dir : List String) (tsStr : String) (ts : DT)
    (hts : parseTs tsStr = some ts) (hin : pre ++ "_" ++ tsStr ++ ".png" ∈ dir) :
    (cleanup_old_images now r pre dir).2 = none ∧
    (pre ++ "_" ++ tsStr ++ ".png" ∈ (cleanup_old_images now r pre dir).1
      ↔ dtLt ts (dtSubMinutes now r)) := by
  obtain ⟨hok, hmem⟩ := cleanup_spec now r pre dir
  refine ⟨hok, ?_⟩
  rw [hmem]
  have hpf : processFile (dtSubMinutes now r) (pre ++ "_" ++ tsStr ++ ".png")
      = .ok (decide (dtLt ts (dtSubMinutes now r))) := by
    rw [processFile_decomp _ _ _ hp, hts]
  constructor
  · rintro ⟨_, _, h3⟩
    rw [hpf] at h3
    exact of_decide_eq_true (Except.ok.inj h3)
  · intro hlt
    exact ⟨hin, matchesGlob_decomp pre tsStr, by
      rw [hpf]
      exact congrArg Except.ok (decide_eq_true hlt)⟩

/-- Witness for the amended C1 on a concrete sweep. -/
theorem C1_retention_witness :
    (cleanup_old_images ⟨2024, 6, 1, 12, 0, 0, 500⟩ 1 "screenshot"
       ["screenshot_20240601_115800.png", "other.txt"]).2 = none ∧
    ("screenshot" ++ "_" ++ "20240601_115800" ++ ".png"
        ∈ (cleanup_old_images ⟨2024, 6, 1, 12, 0, 0, 500⟩ 1 "screenshot"
            ["screenshot_20240601_115800.png", "other.txt"]).1
      ↔ dtLt ⟨2024, 6, 1, 11, 58, 0, 0⟩ (dtSubMinutes ⟨2024, 6, 1, 12, 0, 0, 500⟩ 1)) :=
  C1_retention ⟨2024, 6, 1, 12, 0, 0, 500⟩ 1 "screenshot" (by decide) (by decide)
    ["screenshot_20240601_115800.png", "other.txt"] "20240601_115800"
    ⟨2024, 6, 1, 11, 58, 0, 0⟩ (by decide) (by decide)

/-- C5: with both an unparseable-named glob match and a valid file older than
the cutoff in the same listing, the sweep raises nothing, still deletes the
valid old file, and merely skips the unparseable one. -/
theorem C5_fault_isolation (now : DT) (r : Nat) (pre : String) (hp : '_' ∉ pre.data)
    (_hlit : globLiteral pre) (dir : List String) (bad : String)
    (hbad : parseTs bad = none) (_hbadIn : pre ++ "_" ++ bad ++ ".png" ∈ dir)
    (tsStr : String) (ts : DT) (hts : parseTs tsStr = some ts)
    (hold : dtLt ts (dtSubMinutes now r))
    (hgoodIn : pre ++ "_" ++ tsStr ++ ".png" ∈ dir) :
    (cleanup_old_images now r pre dir).2 = none ∧
    pre ++ "_" ++ tsStr ++ ".png" ∈ (cleanup_old_images now r pre dir).1 ∧
    pre ++ "_" ++ bad ++ ".png" ∉ (cleanup_old_images now r pre dir).1 := by
  obtain ⟨hok, hmem⟩ := cleanup_spec now r pre dir
  refine ⟨hok, ?_, ?_⟩
  · exact (hmem _).mpr ⟨hgoodIn, matchesGlob_decomp pre tsStr, by
      rw [processFile_decomp _ _ _ hp, hts]
      exact congrArg Except.ok (decide_eq_true hold)⟩
  · intro hcon
    have hrun := ((hmem _).mp hcon).2.2
    rw [processFile_decomp _ _ _ hp, hbad] at hrun
    cases hrun

/-- Witness for C5: one sweep over a listing holding `screenshot_junk.png`
and an old valid screenshot. -/
theorem C5_fault_isolation_witness :
    (cleanup_old_images ⟨2024, 6, 1, 12, 0, 0, 0⟩ 1 "screenshot"
       ["screenshot_junk.png", "screenshot_20240601_115800.png"]).2 = none ∧
    "screenshot" ++ "_" ++ "20240601_115800" ++ ".png"
      ∈ (cleanup_old_images ⟨2024, 6, 1, 12, 0, 0, 0⟩ 1 "screenshot"
          ["screenshot_junk.png", "screenshot_20240601_115800.png"]).1 ∧
    "screenshot" ++ "_" ++ "junk" ++ ".png"
      ∉ (cleanup_old_images ⟨2024, 6, 1, 12, 0, 0, 0⟩ 1 "screenshot"
          ["screenshot_junk.png", "screenshot_20240601_115800.png"]).1 :=
  C5_fault_isolation ⟨2024, 6, 1, 12, 0, 0, 0⟩ 1 "screenshot" (by decide) (by decide)
    ["screenshot_junk.png", "screenshot_20240601_115800.png"] "junk" (by decide) (by decide)
    "20240601_115800" ⟨2024, 6, 1, 11, 58, 0, 0⟩ (by decide) (by decide) (by decide)

/-! ### The lexicographic string order of Python `max` -/

lemma lexLt_irrefl : ∀ l : List Char, lexLt l l = false
  | [] => rfl
  | a :: as => by simp [lexLt, lexLt_irrefl as]

lemma lexLt_trans : ∀ a b c : List Char,
    lexLt a b = true → lexLt b c = true → lexLt a c = true := by
  intro a
  induction a with
  | nil =>
    intro b c h1 h2
    cases b with
    | nil => simp [lexLt] at h1
    | cons b bs =>
      cases c with
      | nil => simp [lexLt] at h2
      | cons c cs => simp [lexLt]
  | cons a as ih =>
    intro b c h1 h2
    cases b with
    | nil => simp [lexLt] at h1
    | cons b bs =>
      cases c with
      | nil => simp [lexLt] at h2
      | cons c cs =>
        simp only [lexLt] at h1 h2 ⊢
        by_cases hab : a = b
        · subst hab
          rw [if_pos rfl] at h1
          by_cases hac : a = c
          · subst hac
            rw [if_pos rfl] at h2 ⊢
            exact ih bs cs h1 h2
          · rw [if_neg hac] at h2 ⊢
            exact h2
        · rw [if_neg hab] at h1
          by_cases hbc : b = c
          · subst hbc
            rw [if_neg hab]
            exact h1
          · rw [if_neg hbc] at h2
            have hlt : a < c := lt_trans (of_decide_eq_true h1) (of_decide_eq_true h2)
            rw [if_neg (ne_of_lt hlt)]
            exact decide_eq_true hlt

lemma lexLt_total : ∀ a b : List Char, lexLt a b = false → lexLt b a = false → a = b := by
  intro a
  induction a with
  | nil =>
    intro b h1 _
    cases b with
    | nil => rfl
    | cons b bs => simp [lexLt] at h1
  | cons a as ih =>
    intro b h1 h2
    cases b with
    | nil => simp [lexLt] at h2
    | cons b bs =>
      simp only [lexLt] at h1 h2
      by_cases hab : a = b
      · subst hab
        rw [if_pos rfl] at h1 h2
        rw [ih bs h1 h2]
      · rw [if_neg hab] at h1
        rw [if_neg (Ne.symm hab)] at h2
        rcases lt_trichotomy a b with h | h | h
        · exact absurd h (of_decide_eq_false h1)
        · exact absurd h hab
        · exact absurd h (of_decide_eq_false h2)

lemma lexLt_asymm {a b : List Char} (h : lexLt a b = true) : lexLt b a = false := by
  cases hx : lexLt b a with
  | false => rfl
  | true =>
    have h2 := lexLt_trans a b a h hx
    rw [lexLt_irrefl] at h2
    cases h2

lemma lexLt_negtrans {x y z : List Char} (h1 : lexLt x y = false)
    (h2 : lexLt z x = false) : lexLt z y = false := by
  cases hzy : lexLt z y with
  | false => rfl
  | true =>
    cases hyx : lexLt y x with
    | false =>
      have hxy := lexLt_total x y h1 hyx
      rw [← hxy] at hzy
      rw [hzy] at h2
      cases h2
    | true =>
      have h3 := lexLt_trans z y x hzy hyx
      rw [h3] at h2
      cases h2

lemma foldl_pymax_spec : ∀ (xs : List String) (x : String),
    (xs.foldl (fun m s => if lexLt m.data s.data then s else m) x) ∈ x :: xs ∧
    lexLt (xs.foldl (fun m s => if lexLt m.data s.data then s else m) x).data x.data
      = false ∧
    ∀ y ∈ xs,
      lexLt (xs.foldl (fun m s => if lexLt m.data s.data then s else m) x).data y.data
        = false := by
  intro xs
  induction xs with
  | nil =>
    intro x
    exact ⟨List.mem_cons_self x [], lexLt_irrefl x.data, by simp⟩
  | cons s rest ih =>
    intro x
    rw [List.foldl_cons]
    obtain ⟨h1, h2, h3⟩ := ih (if lexLt x.data s.data then s else x)
    have hax : lexLt (if lexLt x.data s.data then s else x).data x.data = false := by
      split
      · next hxs => exact lexLt_asymm hxs
      · exact lexLt_irrefl _
    have has : lexLt (if lexLt x.data s.data then s else x).data s.data = false := by
      split
      · exact lexLt_irrefl _
      · next hxs => simpa using hxs
    refine ⟨?_, lexLt_negtrans hax h2, ?_⟩
    · rcases List.mem_cons.mp h1 with h | h
      · rw [h]
        split
        · exact List.mem_cons_of_mem _ (List.mem_cons_self s rest)
        · exact List.mem_cons_self x _
      · exact List.mem_cons_of_mem _ (List.mem_cons_of_mem _ h)
    · intro y hy
      rcases List.mem_cons.mp hy with h | h
      · rw [h]
        exact lexLt_negtrans has h2
      · exact h3 y h

lemma pyMax_spec {l : List String} {m : String} (h : pyMax l = some m) :
    m ∈ l ∧ ∀ y ∈ l, lexLt m.data y.data = false := by
  cases l with
  | nil => cases h
  | cons x xs =>
    have hm := Option.some.inj h
    obtain ⟨h1, h2, h3⟩ := foldl_pymax_spec xs x
    rw [hm] at h1 h2 h3
    refine ⟨h1, fun y hy => ?_⟩
    rcases List.mem_cons.mp hy with hh | hh
    · rw [hh]
      exact h2
    · exact h3 y hh

/-- C7 counterexample: with prefix "screenshot" and a stray `zz.png` in the
save directory, `capture_game_state` hands off `zz.png`, which does not match
the configured `screenshot_*.png` pattern, even though the fresh capture —
which does match — is present. -/
theorem C7_handoff_counterexample :
    capture_game_state ⟨2025, 1, 1, 12, 0, 0, 0⟩ "screenshot" ["zz.png"] true
      = some "zz.png" ∧
    matchesGlob "screenshot" "zz.png" = false ∧
    mkFilename "screenshot" ⟨2025, 1, 1, 12, 0, 0, 0⟩
      ∈ postShotDir ⟨2025, 1, 1, 12, 0, 0, 0⟩ "screenshot" ["zz.png"] true ∧
    matchesGlob "screenshot" (mkFilename "screenshot" ⟨2025, 1, 1, 12, 0, 0, 0⟩)
      = true := by decide

/-- C7 (amended): `capture_game_state` returns the lexicographically greatest
(Python string order) `.png` name in the save directory after the capture
attempt — the maximum is taken over ALL `.png` files, with no restriction to
the configured prefix-and-timestamp pattern. -/
theorem C7_handoff_lex_max (now : DT) (pre : String) (dir : List String) (writeOk : Bool)
    (hne : (postShotDir now pre dir writeOk).filter (fun n => endsPng n) ≠ []) :
    ∃ m, capture_game_state now pre dir writeOk = some m ∧
      m ∈ postShotDir now pre dir writeOk ∧ endsPng m = true ∧
      ∀ y ∈ postShotDir now pre dir writeOk, endsPng y = true →
        lexLt m.data y.data = false := by
  unfold capture_game_state
  cases hl : (postShotDir now pre dir writeOk).filter (fun n => endsPng n) with
  | nil => exact absurd hl hne
  | cons x xs =>
    have hpm : pyMax (x :: xs)
        = some (xs.foldl (fun m s => if lexLt m.data s.data then s else m) x) := rfl
    obtain ⟨h1, h2⟩ := pyMax_spec hpm
    rw [← hl] at h1 h2
    refine ⟨_, rfl, (List.mem_filter.mp h1).1, (List.mem_filter.mp h1).2, ?_⟩
    intro y hy hpng
    exact h2 y (List.mem_filter.mpr ⟨hy, hpng⟩)

/-- Witness for the amended C7 on a concrete directory. -/
theorem C7_handoff_lex_max_witness :
    ∃ m, capture_game_state ⟨2025, 1, 1, 12, 0, 0, 0⟩ "screenshot" ["zz.png"] true
        = some m ∧
      m ∈ postShotDir ⟨2025, 1, 1, 12, 0, 0, 0⟩ "screenshot" ["zz.png"] true ∧
      endsPng m = true ∧
      ∀ y ∈ postShotDir ⟨2025, 1, 1, 12, 0, 0, 0⟩ "screenshot" ["zz.png"] true,
        endsPng y = true → lexLt m.data y.data = false :=
  C7_handoff_lex_max ⟨2025, 1, 1, 12, 0, 0, 0⟩ "screenshot" ["zz.png"] true (by decide)

/-! ### Round trip of the timestamp format through the sweeper's parser -/

lemma daysInMonth_le (y m : Nat) : daysInMonth y m ≤ 31 := by
  unfold daysInMonth
  split
  · split <;> omega
  · split <;> omega

lemma dc_isDigit (d : Nat) : (dc d).isDigit = true := by
  unfold dc
  split <;> decide

lemma dval_dc {d : Nat} (h : d ≤ 9) : dval (dc d) = d := by
  interval_cases d <;> decide

lemma withAlts_cons_none {α : Type} (a : List Char → Option (Nat × List Char))
    (alts : List (List Char → Option (Nat × List Char))) (cs : List Char)
    (k : Nat → List Char → Option α) (h : a cs = none) :
    withAlts (a :: alts) cs k = withAlts alts cs k := by
  conv_lhs => rw [withAlts]
  rw [h]

lemma withAlts_cons_some {α : Type} {a : List Char → Option (Nat × List Char)}
    {alts : List (List Char → Option (Nat × List Char))} {cs : List Char}
    {k : Nat → List Char → Option α} {v : Nat} {cs2 : List Char} {r : α}
    (h : a cs = some (v, cs2)) (hk : k v cs2 = some r) :
    withAlts (a :: alts) cs k = some r := by
  conv_lhs => rw [withAlts]
  rw [h]
  show (match k v cs2 with
    | some r2 => some r2
    | none => withAlts alts cs k) = some r
  rw [hk]

lemma matchY_pad4 {y : Nat} (h : y ≤ 9999) (rest : List Char) :
    matchY (pad4 y ++ rest) = some (y, rest) := by
  show (if (dc (y / 1000)).isDigit = true ∧ (dc (y / 100 % 10)).isDigit = true ∧
      (dc (y / 10 % 10)).isDigit = true ∧ (dc (y % 10)).isDigit = true then
      some (((dval (dc (y / 1000)) * 10 + dval (dc (y / 100 % 10))) * 10
        + dval (dc (y / 10 % 10))) * 10 + dval (dc (y % 10)), rest)
    else none) = some (y, rest)
  rw [if_pos ⟨dc_isDigit _, dc_isDigit _, dc_isDigit _, dc_isDigit _⟩,
    dval_dc (by omega), dval_dc (by omega), dval_dc (by omega), dval_dc (by omega)]
  have hval : ((y / 1000 * 10 + y / 100 % 10) * 10 + y / 10 % 10) * 10 + y % 10 = y := by
    omega
  rw [hval]

lemma withAlts_month {α : Type} {mo : Nat} {rest : List Char}
    {k : Nat → List Char → Option α} {r : α} (h1 : 1 ≤ mo) (h2 : mo ≤ 12)
    (hk : k mo rest = some r) :
    withAlts [mA1, mA2, mA3] (pad2 mo ++ rest) k = some r := by
  interval_cases mo <;>
    first
      | exact withAlts_cons_some rfl hk
      | exact (withAlts_cons_none _ _ _ _ rfl).trans (withAlts_cons_some rfl hk)

lemma withAlts_day {α : Type} {d : Nat} {rest : List Char}
    {k : Nat → List Char → Option α} {r : α} (h1 : 1 ≤ d) (h2 : d ≤ 31)
    (hk : k d rest = some r) :
    withAlts [dA1, dA2, mA2, mA3] (pad2 d ++ rest) k = some r := by
  interval_cases d <;>
    first
      | exact withAlts_cons_some rfl hk
      | exact (withAlts_cons_none _ _ _ _ rfl).trans (withAlts_cons_some rfl hk)
      | exact ((withAlts_cons_none _ _ _ _ rfl).trans
          (withAlts_cons_none _ _ _ _ rfl)).trans (withAlts_cons_some rfl hk)

lemma withAlts_hour {α : Type} {h : Nat} {rest : List Char}
    {k : Nat → List Char → Option α} {r : α} (h1 : h ≤ 23)
    (hk : k h rest = some r) :
    withAlts [hA1, hA2, hA3] (pad2 h ++ rest) k = some r := by
  interval_cases h <;>
    first
      | exact withAlts_cons_some rfl hk
      | exact (withAlts_cons_none _ _ _ _ rfl).trans (withAlts_cons_some rfl hk)

lemma withAlts_min {α : Type} {mi : Nat} {rest : List Char}
    {k : Nat → List Char → Option α} {r : α} (h1 : mi ≤ 59)
    (hk : k mi rest = some r) :
    withAlts [miA1, hA3] (pad2 mi ++ rest) k = some r := by
  interval_cases mi <;> exact withAlts_cons_some rfl hk

lemma withAlts_sec {α : Type} {s : Nat} {rest : List Char}
    {k : Nat → List Char → Option α} {r : α} (h1 : s ≤ 59)
    (hk : k s rest = some r) :
    withAlts [sA1, miA1, hA3] (pad2 s ++ rest) k = some r := by
  interval_cases s <;>
    exact (withAlts_cons_none _ _ _ _ rfl).trans (withAlts_cons_some rfl hk)

/-- The regex matches a formatted timestamp exactly, leaving no remainder. -/
lemma matchTs_format {t : DT} (hv : ValidDT t) :
    matchTs (formatTs t).data
      = some (⟨t.year, t.month, t.day, t.hour, t.minute, t.second⟩, []) := by
  obtain ⟨_, h2, h3, h4, h5, h6, h7, h8, h9, _⟩ := hv
  show matchTs (pad4 t.year ++ pad2 t.month ++ pad2 t.day ++
    '_' :: (pad2 t.hour ++ pad2 t.minute ++ pad2 t.second)) = _
  simp only [List.append_assoc]
  unfold matchTs
  rw [matchY_pad4 h2]
  split
  · next heq => cases heq
  · next y cs1 heq =>
    obtain ⟨hy, hcs⟩ := Prod.mk.inj (Option.some.inj heq)
    subst hy
    subst hcs
    exact withAlts_month h3 h4 (withAlts_day h5 (h6.trans (daysInMonth_le t.year t.month))
      (withAlts_hour h7 (withAlts_min h8 (withAlts_sec h9 rfl))))

/-- Round trip of format through parse, for every constructible instant. -/
lemma parse_format_roundtrip (t : DT) (hv : ValidDT t) :
    parseTs (formatTs t) = some (truncSec t) := by
  unfold parseTs
  rw [matchTs_format hv]
  split
  · next heq => cases heq
  · next f rest heq =>
    obtain ⟨hf, hrest⟩ := Prod.mk.inj (Option.some.inj heq)
    subst hf
    subst hrest
    rw [if_pos rfl]
    obtain ⟨h1, h2, h3, h4, h5, h6, h7, h8, h9, _⟩ := hv
    rw [if_pos ⟨h1, h2, h3, h4, h5, h6, h7, h8, h9⟩]
    rfl

/-- C2: formatting an instant with `"%Y%m%d_%H%M%S"` and parsing the result
with the sweeper's parser yields the instant truncated to second granularity.
(The year-padding model covers the four-digit years Python guarantees, hence
the `1000 ≤ year` scope hypothesis.) -/
theorem C2_timestamp_roundtrip (t : DT) (hv : ValidDT t) (_hy : 1000 ≤ t.year) :
    parseTs (formatTs t) = some (truncSec t) :=
  parse_format_roundtrip t hv

/-- Witness for C2 at a concrete instant with microseconds. -/
theorem C2_timestamp_roundtrip_witness :
    parseTs (formatTs ⟨2024, 6, 1, 12, 34, 56, 789⟩)
      = some (truncSec ⟨2024, 6, 1, 12, 34, 56, 789⟩) :=
  C2_timestamp_roundtrip ⟨2024, 6, 1, 12, 34, 56, 789⟩ (by decide) (by decide)

/-! ### Filename uniqueness of the capture loop -/

lemma formatTs_inj {t1 t2 : DT} (h1 : ValidDT t1) (h2 : ValidDT t2)
    (hf : formatTs t1 = formatTs t2) : truncSec t1 = truncSec t2 := by
  have e1 := parse_format_roundtrip t1 h1
  have e2 := parse_format_roundtrip t2 h2
  rw [hf] at e1
  exact Option.some.inj (e1.symm.trans e2)

lemma mkFilename_inj {pre : String} {t1 t2 : DT} (h1 : ValidDT t1) (h2 : ValidDT t2)
    (hf : mkFilename pre t1 = mkFilename pre t2) : truncSec t1 = truncSec t2 := by
  apply formatTs_inj h1 h2
  have hd := congrArg String.data hf
  simp only [mkFilename, String.data_append] at hd
  apply String.ext
  exact List.append_cancel_left (List.append_cancel_right hd)

lemma secIdx_of_trunc_eq {t1 t2 : DT} (h : truncSec t1 = truncSec t2) :
    secIdx t1 = secIdx t2 := by
  have h1 : secIdx (truncSec t1) = secIdx (truncSec t2) := by rw [h]
  exact h1

lemma usOf_gap {clock : Nat → DT} {n intervalMs : Nat}
    (hgap : ∀ i, i + 1 < n → usOf (clock i) + 1000 * intervalMs ≤ usOf (clock (i + 1)))
    (hint : 1000 ≤ intervalMs) :
    ∀ i j, i < j → j < n → usOf (clock i) + 1000000 ≤ usOf (clock j) := by
  intro i j
  induction j with
  | zero => intro h _; omega
  | succ j ih =>
    intro hij hjn
    have hstep := hgap j (by omega)
    rcases Nat.lt_or_ge i j with h | h
    · have hrec := ih h (by omega)
      omega
    · have hij2 : i = j := by omega
      subst hij2
      omega

/-- C8: with capture interval at least one second (`interval_ms ≥ 1000`, so
ticks sleep at least `1000 * interval_ms` microseconds apart on the real
clock) and every tick's clock reading a constructible datetime of a
four-digit year, no two ticks of one run compute the same filename. -/
theorem C8_filename_uniqueness (pre : String) (clock : Nat → DT) (n intervalMs : Nat)
    (hint : 1000 ≤ intervalMs)
    (hvalid : ∀ i, i < n → ValidDT (clock i))
    (hgap : ∀ i, i + 1 < n → usOf (clock i) + 1000 * intervalMs ≤ usOf (clock (i + 1))) :
    (shotNames pre clock n).Nodup := by
  unfold shotNames
  apply List.Nodup.map_on ?_ (List.nodup_range n)
  intro i hi j hj hfeq
  rw [List.mem_range] at hi hj
  by_contra hne
  have key : ∀ a b, a < b → b < n → mkFilename pre (clock a) ≠ mkFilename pre (clock b) := by
    intro a b hab hbn heq
    have hva := hvalid a (by omega)
    have hvb := hvalid b hbn
    have hsec := secIdx_of_trunc_eq (mkFilename_inj hva hvb heq)
    have hgap2 := usOf_gap hgap hint a b hab hbn
    obtain ⟨_, _, _, _, _, _, _, _, _, hua⟩ := hva
    obtain ⟨_, _, _, _, _, _, _, _, _, hub⟩ := hvb
    have e1 : usOf (clock a) = secIdx (clock a) * 1000000 + (clock a).us := rfl
    have e2 : usOf (clock b) = secIdx (clock b) * 1000000 + (clock b).us := rfl
    omega
  rcases Nat.lt_trichotomy i j with h | h | h
  · exact key i j h hj hfeq
  · exact hne h
  · exact (key j i h hi) hfeq.symm

/-- Witness for C8: two ticks one second apart. -/
theorem C8_filename_uniqueness_witness :
    (shotNames "screenshot"
      (fun i => if i = 0 then ⟨2024, 6, 1, 12, 0, 0, 0⟩ else ⟨2024, 6, 1, 12, 0, 1, 0⟩)
      2).Nodup :=
  C8_filename_uniqueness "screenshot"
    (fun i => if i = 0 then ⟨2024, 6, 1, 12, 0, 0, 0⟩ else ⟨2024, 6, 1, 12, 0, 1, 0⟩)
    2 1000 (by omega)
    (by intro i hi; interval_cases i <;> decide)
    (by
      intro i hi
      have hz : i = 0 := by omega
      subst hz
      show usOf ⟨2024, 6, 1, 12, 0, 0, 0⟩ + 1000 * 1000 ≤ usOf ⟨2024, 6, 1, 12, 0, 1, 0⟩
      decide)

end CandyBot
